import Mathlib

/-!
Verification development for the genai_cookbook repository.

The development shallowly embeds the two scripts of the repository:

* `src/3_RAG/rag_app/gradio_rag_app.py` — the RAG pipeline
  (document loading, chunking, indexing, retrieval, context assembly,
  answer formatting, conversation history, clearing the index);
* `src/4_Agents/mcp_server/mcp_server_example.py` — the tool server
  path-containment check and the `read_file` handler.

Text is modelled as `List Char`. External collaborators (the langchain
text splitter, the Qdrant vector store, the embedding and chat models,
the document parsers) are not part of the repository source; where a
property depends on them, the corresponding definition carries a doc
comment starting with `Modelled from the spec:` and follows the words of
the specification.
-/

set_option maxHeartbeats 1000000
set_option maxRecDepth 100000

namespace Cookbook

/-! ### Basic text utilities -/

/-- Characters treated as whitespace by Python `str.strip`. -/
def pyWhite (c : Char) : Bool :=
  c = ' ' || c = '\t' || c = '\n' || c = '\r' || c = '\x0b' || c = '\x0c'

/-- Python `str.strip`: drop whitespace from both ends. -/
def pyStrip (l : List Char) : List Char :=
  ((l.dropWhile pyWhite).reverse.dropWhile pyWhite).reverse

/-- Decimal rendering of a natural number, as a character list. -/
def natStr (n : Nat) : List Char := (toString n).data

/-- Python `enumerate` with a start index. -/
def enumFrom {α : Type} (n : Nat) : List α → List (Nat × α)
  | [] => []
  | a :: r => (n, a) :: enumFrom (n + 1) r

/-- Number of positions of `l` at which `pat` occurs as a substring. -/
def countOcc (pat l : List Char) : Nat :=
  ((List.range (l.length + 1)).filter (fun i => pat.isPrefixOf (l.drop i))).length

/-- The slice `text[s:e]` of a character list. -/
def sliceLC (text : List Char) (s e : Nat) : List Char :=
  (text.take e).drop s

/-- A langchain `Document`: page content plus its `source` metadata entry. -/
structure Doc where
  content : List Char
  source : String
deriving DecidableEq

/-! ### Grouping retrieved chunks by source (query_rag, lines 253-259)

`sources_dict` in the Python code is an insertion-ordered dict mapping a
source name to the list of its retrieved chunks, in retrieval order. -/

/-- One step of the grouping loop: append `d` to the entry of its source,
or add a fresh entry at the end (Python dict insertion order). -/
def insertGrouped (groups : List (String × List Doc)) (d : Doc) : List (String × List Doc) :=
  match groups with
  | [] => [(d.source, [d])]
  | (s, ds) :: rest =>
    if s = d.source then (s, ds ++ [d]) :: rest
    else (s, ds) :: insertGrouped rest d

/-- The `sources_dict` built by `query_rag` from the retrieved chunks. -/
def groupBySource (docs : List Doc) : List (String × List Doc) :=
  docs.foldl insertGrouped []

/-- Add a key to a key list unless already present (dict key order). -/
def addKey (ks : List String) (s : String) : List String :=
  if s ∈ ks then ks else ks ++ [s]

/-- Source names of the retrieved chunks in order of first occurrence. -/
def keysOf (docs : List Doc) : List String :=
  docs.foldl (fun ks d => addKey ks d.source) []

/-! ### Context assembly (query_rag, lines 261-270 and 293-297) -/

/-- The label `[Document: source | Chunk idx]` heading one context part. -/
def chunkLabel (source : String) (idx : Nat) : List Char :=
  "[Document: ".data ++ source.data ++ " | Chunk ".data ++ natStr idx ++ "]".data

/-- One entry of `context_parts`: the label, a newline, the chunk text. -/
def contextPart (source : String) (idx : Nat) (d : Doc) : List Char :=
  chunkLabel source idx ++ '\n' :: d.content

/-- The list `context_parts` built by `query_rag`: for every source group,
its chunks labeled with a per-source index starting at 1. -/
def contextParts (docs : List Doc) : List (List Char) :=
  ((groupBySource docs).map
    (fun g => (enumFrom 1 g.2).map (fun p => contextPart g.1 p.1 p.2))).flatten

/-- The assembled context: the parts joined by a separator line. -/
def assembleContext (docs : List Doc) : List Char :=
  List.intercalate "\n\n---\n\n".data (contextParts docs)

/-- The context string actually passed to the chat model: `context[:6000]`. -/
def contextForModel (docs : List Doc) : List Char :=
  (assembleContext docs).take 6000

/-! ### Source attribution section (query_rag, lines 301-320) -/

/-- The chunk preview computed by the code:
`doc.page_content[:150].replace("\n", " ").strip()` plus an ellipsis when
the chunk is longer than 150 characters. -/
def previewOf (d : Doc) : List Char :=
  pyStrip ((d.content.take 150).map (fun c => if c = '\n' then ' ' else c)) ++
    (if 150 < d.content.length then "...".data else [])

/-- The preview as claim C6 words it: the first 150 characters of the chunk
with newlines replaced by spaces and an ellipsis appended when the chunk is
longer than 150 characters.  Stated from the claim, for comparison with the
implementation preview `previewOf`. -/
def claimPreview (d : Doc) : List Char :=
  ((d.content.take 150).map (fun c => if c = '\n' then ' ' else c)) ++
    (if 150 < d.content.length then "...".data else [])

/-- One preview line of the sources section. -/
def previewLine (idx : Nat) (d : Doc) : List Char :=
  "   • Chunk ".data ++ natStr idx ++ ": _".data ++ previewOf d ++ "_\n".data

/-- The `... and N more chunk(s)` line. -/
def moreLine (k : Nat) : List Char :=
  "   • ... and ".data ++ natStr k ++ " more chunk(s)\n".data

/-- The heading line of one source block. -/
def blockHead (s : String) (k : Nat) : List Char :=
  "📄 **".data ++ s.data ++ "** (".data ++ natStr k ++ " chunk(s))\n".data

/-- The block the code emits for one source: heading, previews of the first
three chunks, an `and N more` line when more than three chunks, blank line. -/
def sourceBlock (s : String) (ds : List Doc) : List Char :=
  blockHead s ds.length
    ++ ((enumFrom 1 (ds.take 3)).map (fun p => previewLine p.1 p.2)).flatten
    ++ (if 3 < ds.length then moreLine (ds.length - 3) else [])
    ++ "\n".data

/-- The banner of the sources section, carrying the distinct document count
and the total chunk count. -/
def sourcesHeader (m n : Nat) : List Char :=
  "\n\n".data ++ List.replicate 60 '='
    ++ "\n📚 **Sources Used** (".data ++ natStr m ++ " document(s), ".data
    ++ natStr n ++ " chunk(s))\n".data ++ List.replicate 60 '=' ++ "\n\n".data

/-- The full `sources_section` appended to the model answer. -/
def sourcesSection (docs : List Doc) : List Char :=
  sourcesHeader (groupBySource docs).length docs.length
    ++ ((groupBySource docs).map (fun g => sourceBlock g.1 g.2)).flatten

/-- The source block as claim C6 would have it: identical to `sourceBlock`
except that previews are `claimPreview` instead of the stripped `previewOf`.
Stated from the claim, for comparison with the implementation. -/
def claimSourceBlock (s : String) (ds : List Doc) : List Char :=
  blockHead s ds.length
    ++ ((enumFrom 1 (ds.take 3)).map
        (fun p => "   • Chunk ".data ++ natStr p.1 ++ ": _".data
          ++ claimPreview p.2 ++ "_\n".data)).flatten
    ++ (if 3 < ds.length then moreLine (ds.length - 3) else [])
    ++ "\n".data

/-- The sources section as claim C6 describes it (previews unstripped). -/
def claimSourcesSection (docs : List Doc) : List Char :=
  sourcesHeader (groupBySource docs).length docs.length
    ++ ((groupBySource docs).map (fun g => claimSourceBlock g.1 g.2)).flatten

/-- The final answer: raw model answer followed by the sources section. -/
def answerWithSources (answer : List Char) (docs : List Doc) : List Char :=
  answer ++ sourcesSection docs

/-! ### The query operation (query_rag, lines 236-330)

The retrieval step (`retriever.invoke`) and the model call
(`chain.invoke`) are calls into external libraries inside the handler's
`try` block; each is passed to the embedding as an `Except` value: `.ok`
for a normal return, `.error` for a raised exception caught by the
`except` clause. -/

/-- The warning returned when retrieval produced no documents. -/
def noRelevantMsg : List Char :=
  "⚠️ No relevant documents found. Please index some documents first.".data

/-- The user-visible error string built by the `except` clause. -/
def queryErrText (e : List Char) : List Char :=
  "❌ Error processing query: ".data ++ e

/-- The `query_rag` handler.  Returns the new value of the question box and
the updated conversation history, exactly as the Python function does. -/
def query_rag (question : List Char) (history : List (List Char × List Char))
    (retrievalResult : Except (List Char) (List Doc))
    (modelResult : Except (List Char) (List Char)) :
    List Char × List (List Char × List Char) :=
  if pyStrip question = [] then ([], history)
  else
    match retrievalResult with
    | .error e => ([], history ++ [(question, queryErrText e)])
    | .ok docs =>
      if docs = [] then (noRelevantMsg, history)
      else
        match modelResult with
        | .ok answer => ([], history ++ [(question, answerWithSources answer docs)])
        | .error e => ([], history ++ [(question, queryErrText e)])

/-! ### Vector store state, indexing and clearing -/

/-- The mutable module state the pipeline shares: the contents of the
Qdrant collection the `vectorstore` handle points at. -/
structure AppState where
  store : List Doc
deriving DecidableEq

/-- Modelled from the spec: the Qdrant `add_documents` upsert (external
library, not in src/) stores each chunk under a fresh id, so an index
operation only appends vectors and modifies none (spec section 4.2). -/
def addDocuments (store : List Doc) (chunks : List Doc) : List Doc :=
  store ++ chunks

/-- Modelled from the spec: the retriever (external langchain/Qdrant code,
not in src/) returns a RetrievedSet of up to K = 10 chunks drawn from the
collection; the relevance/MMR ranking itself is the external embedding
model's behavior and is modelled as collection order (spec section 4.3). -/
def retrieve (store : List Doc) (_question : List Char) : List Doc :=
  store.take 10

/-- The `query_rag` handler run against a concrete collection state: the
retrieval step reads the collection through the retriever. -/
def query_rag_state (st : AppState) (question : List Char)
    (history : List (List Char × List Char))
    (modelResult : Except (List Char) (List Char)) :
    List Char × List (List Char × List Char) :=
  query_rag question history (.ok (retrieve st.store question)) modelResult

/-- One uploaded file as `index_documents` sees it: its display name and
the outcome of the `load_document` call (`.error` when it raised). -/
structure FileRec where
  name : String
  loadResult : Except (List Char) (List Doc)

/-- The per-file loop of `index_documents` (lines 164-185): collect loaded
documents with their `source` metadata set to the filename, the names of
processed files, and the per-file error strings. -/
def processFiles : List (Option FileRec) → List Doc × List String × List (List Char)
  | [] => ([], [], [])
  | none :: rest => processFiles rest
  | some f :: rest =>
    match f.loadResult with
    | .ok docs =>
      let r := processFiles rest
      (docs.map (fun d => ⟨d.content, f.name⟩) ++ r.1, f.name :: r.2.1, r.2.2)
    | .error e =>
      let r := processFiles rest
      (r.1, r.2.1, ((f.name.data ++ ": ".data ++ e) :: r.2.2))

/-- The warning returned for an empty upload list. -/
def noFilesMsg : List Char := "⚠️ Please upload at least one document!".data

/-- The error status returned when no document could be loaded, listing
the per-file errors. -/
def noDocsMsg (errors : List (List Char)) : List Char :=
  "⚠️ No documents could be loaded!\n".data ++
    (if errors = [] then []
     else "\nErrors:\n".data
       ++ List.intercalate "\n".data (errors.map (fun e => "- ".data ++ e)))

/-- The success status of `index_documents`. -/
def indexSuccessMsg (chunkCount : Nat) (processed : List String)
    (errors : List (List Char)) : List Char :=
  "✅ Successfully indexed ".data ++ natStr chunkCount
    ++ " chunks from ".data ++ natStr processed.length ++ " file(s)!\n\n".data
    ++ "Files processed:\n".data
    ++ List.intercalate "\n".data (processed.map (fun f => "- ".data ++ f.data))
    ++ (if errors = [] then []
        else "\n\n⚠️ Errors:\n".data
          ++ List.intercalate "\n".data (errors.map (fun e => "- ".data ++ e)))

/-- The per-file error strings of an upload batch. -/
def errsOf (files : List (Option FileRec)) : List (List Char) :=
  files.filterMap (fun o =>
    match o with
    | none => none
    | some f =>
      match f.loadResult with
      | .ok _ => none
      | .error e => some (f.name.data ++ ": ".data ++ e))

/-! ### The Chunker

Modelled from the spec: the splitting itself is performed by langchain's
`RecursiveCharacterTextSplitter` (external library, not in src/), which
`index_documents` configures with `chunk_size=1000`, `chunk_overlap=200`
and separators `["\n\n", "\n", ". ", " ", ""]` (lines 193-199).  The
model below follows spec section 4.1: each chunk is at most 1000
characters, ends at the largest available position aligned to the most
preferred separator (paragraph break, line break, sentence-ending period
plus space, space, hard cut, in that order), and the next chunk starts
200 characters before the previous chunk's end. -/

/-- Paragraph-break separator. -/
def sepPar : List Char := "\n\n".data

/-- Line-break separator. -/
def sepLine : List Char := "\n".data

/-- Sentence-ending separator. -/
def sepSent : List Char := ". ".data

/-- Word-break separator. -/
def sepWord : List Char := " ".data

/-- Whether position `p` of `text` is immediately preceded by `sep`, so
that a chunk ending at `p` ends right after the separator. -/
def sepAt (text sep : List Char) (p : Nat) : Bool :=
  decide (sep.length ≤ p) && (sliceLC text (p - sep.length) p == sep)

/-- Largest position `q` with `start < q ≤ hi` at which `sep` ends, found
by scanning downward from `hi`. -/
def findSepEnd (text sep : List Char) (start : Nat) : Nat → Option Nat
  | 0 => none
  | p + 1 =>
    if p + 1 ≤ start then none
    else if sepAt text sep (p + 1) then some (p + 1)
    else findSepEnd text sep start p

/-- End position of a chunk that gets no separator alignment: the size
bound, or the end of the text. -/
def hardEnd (text : List Char) (start : Nat) : Nat :=
  min (start + 1000) text.length

/-- End position of the chunk starting at `start`: the largest separator
position within the size bound, trying the separators in preference
order, falling back to a hard cut. -/
def splitPoint (text : List Char) (start : Nat) : Nat :=
  match findSepEnd text sepPar start (hardEnd text start) with
  | some p => p
  | none =>
    match findSepEnd text sepLine start (hardEnd text start) with
    | some p => p
    | none =>
      match findSepEnd text sepSent start (hardEnd text start) with
      | some p => p
      | none =>
        match findSepEnd text sepWord start (hardEnd text start) with
        | some p => p
        | none => hardEnd text start

/-- End position of the first chunk produced from `start`. -/
def firstEnd (text : List Char) (start : Nat) : Nat :=
  if text.length ≤ start + 1000 then text.length else splitPoint text start

/-- The chunk boundaries produced from position `start`: a list of
`(start, end)` slices.  When the rest of the text fits the size bound it
becomes the final chunk; otherwise the chunk ends at the split point and
the next chunk starts 200 characters earlier (the overlap), clamped so
that every chunk starts strictly after its predecessor. -/
def chunksFrom (text : List Char) (start : Nat) : List (Nat × Nat) :=
  if h : text.length ≤ start + 1000 then [(start, text.length)]
  else
    (start, splitPoint text start) ::
      chunksFrom text (max (start + 1) (splitPoint text start - 200))
termination_by text.length - start
decreasing_by
  simp only [not_le] at h
  omega

/-- The chunk boundaries of a whole text. -/
def chunkSlices (text : List Char) : List (Nat × Nat) :=
  if text.length = 0 then [] else chunksFrom text 0

/-- The chunk texts of a whole text. -/
def chunkTexts (text : List Char) : List (List Char) :=
  (chunkSlices text).map (fun pr => sliceLC text pr.1 pr.2)

/-- Concatenation of the chunks with the overlap removed: each chunk after
the first is appended without its first `previousEnd - start` characters. -/
def reconFrom (text : List Char) : Nat → List (Nat × Nat) → List Char
  | _, [] => []
  | pe, (s, e) :: rest => (sliceLC text s e).drop (pe - s) ++ reconFrom text e rest

/-- No position in `(start, hi]` ends with the separator `sep`. -/
def noSep (text sep : List Char) (start hi : Nat) : Prop :=
  ∀ q, start < q → q ≤ hi → sepAt text sep q = false

/-- The separator-preference contract of a split point `p` for the chunk
starting at `start`: the boundary ends with the most preferred separator
available in the window, or is a hard cut when no separator occurs. -/
def prefOk (text : List Char) (start p : Nat) : Prop :=
  sepAt text sepPar p = true
  ∨ (noSep text sepPar start (hardEnd text start) ∧ sepAt text sepLine p = true)
  ∨ (noSep text sepPar start (hardEnd text start)
      ∧ noSep text sepLine start (hardEnd text start)
      ∧ sepAt text sepSent p = true)
  ∨ (noSep text sepPar start (hardEnd text start)
      ∧ noSep text sepLine start (hardEnd text start)
      ∧ noSep text sepSent start (hardEnd text start)
      ∧ sepAt text sepWord p = true)
  ∨ (noSep text sepPar start (hardEnd text start)
      ∧ noSep text sepLine start (hardEnd text start)
      ∧ noSep text sepSent start (hardEnd text start)
      ∧ noSep text sepWord start (hardEnd text start)
      ∧ p = hardEnd text start)

/-- Chunks of one document, inheriting its source metadata. -/
def docChunks (d : Doc) : List Doc :=
  (chunkTexts d.content).map (fun c => ⟨c, d.source⟩)

/-- Chunks of a batch of documents (`text_splitter.split_documents`). -/
def chunksOf (docs : List Doc) : List Doc :=
  (docs.map docChunks).flatten

/-- The `index_documents` handler (lines 150-233): load every file,
report per-file errors, split the loaded documents into chunks and add
them to the collection, returning the new state and the status string. -/
def index_documents (files : List (Option FileRec)) (st : AppState) :
    AppState × List Char :=
  if files.isEmpty then (st, noFilesMsg)
  else
    let r := processFiles files
    if r.1 = [] then (st, noDocsMsg r.2.2)
    else
      let chunks := chunksOf r.1
      (⟨addDocuments st.store chunks⟩,
        indexSuccessMsg chunks.length r.2.1 r.2.2)

/-- The `clear_index` handler (lines 333-371): point the handles at a
freshly created, empty collection; vectors stored before the clear are no
longer visible to any query. -/
def clear_index (_st : AppState) : AppState × List Char :=
  (⟨[]⟩, "✅ Index cleared successfully!".data)

/-! ### Document loading (load_document, lines 95-147)

Extension dispatch becomes a constructor of `FileInput`; the payload of
each constructor is what the external parser library extracted from the
file (PyPDFLoader pages, python-docx paragraphs and table cells,
python-pptx per-slide shape texts, the raw text read by TextLoader). -/

/-- The extracted content of an uploaded file, by extension class. -/
inductive FileInput where
  | pdf (docs : List Doc)
  | docx (paras : List (List Char)) (cells : List (List Char))
  | pptx (slides : List (List (List Char)))
  | txt (fileText : List Char)
  | other (ext : String)

/-- Full text assembled for a Word document: paragraphs with non-blank
text, then table cells with non-blank text, joined by newlines. -/
def docxFullText (paras cells : List (List Char)) : List Char :=
  List.intercalate "\n".data
    ((paras.filter (fun p => ¬ pyStrip p = [])) ++
      (cells.filter (fun c => ¬ pyStrip c = [])))

/-- Full text assembled for a PowerPoint document: slides numbered from 1
before filtering, a slide kept only when it has a shape with non-blank
text, joined by blank lines. -/
def pptxFullText (slides : List (List (List Char))) : List Char :=
  List.intercalate "\n\n".data
    ((enumFrom 1 slides).filterMap (fun p =>
      let texts := p.2.filter (fun t => ¬ pyStrip t = [])
      if texts = [] then none
      else some ("Slide ".data ++ natStr p.1 ++ ":\n".data
        ++ List.intercalate "\n".data texts)))

/-- The wrapper the `except` clause puts around any raised error. -/
def loadErrMsg (path : String) (msg : List Char) : List Char :=
  "Error loading document ".data ++ path.data ++ ": ".data ++ msg

/-- The `load_document` function: dispatch on the file type, assemble the
extracted text, and raise (return `.error`) on an empty Word or
PowerPoint document or an unsupported extension.  The PDF and TXT
branches return the external loader's output unchecked. -/
def load_document (path : String) (input : FileInput) :
    Except (List Char) (List Doc) :=
  match input with
  | .pdf docs => .ok docs
  | .docx paras cells =>
    if pyStrip (docxFullText paras cells) = [] then
      .error (loadErrMsg path "Document appears to be empty".data)
    else .ok [⟨docxFullText paras cells, path⟩]
  | .pptx slides =>
    if pyStrip (pptxFullText slides) = [] then
      .error (loadErrMsg path "Presentation appears to be empty".data)
    else .ok [⟨pptxFullText slides, path⟩]
  | .txt fileText => .ok [⟨fileText, path⟩]
  | .other ext =>
    .error (loadErrMsg path ("Unsupported file type: ".data ++ ext.data))

/-! ### The tool server path containment (mcp_server_example.py)

Paths are modelled as lists of components; `Path.resolve` becomes lexical
normalization of `.` and `..` against the component stack. -/

/-- Split a path string on slashes into components (empty components are
produced by leading, trailing or doubled slashes). -/
def splitComps : List Char → List (List Char)
  | [] => [[]]
  | c :: rest =>
    if c = '/' then [] :: splitComps rest
    else
      match splitComps rest with
      | [] => [[c]]
      | comp :: comps => (c :: comp) :: comps

/-- Resolve `.` and `..` components against the stack, as `Path.resolve`
does for an absolute path (a `..` at the root stays at the root). -/
def normalizeComps (comps : List (List Char)) : List (List Char) :=
  comps.foldl
    (fun acc c =>
      if c = [] ∨ c = ['.'] then acc
      else if c = ['.', '.'] then acc.dropLast
      else acc ++ [c]) []

/-- Render resolved components the way `str(Path(...))` does. -/
def pathStr (comps : List (List Char)) : List Char :=
  '/' :: List.intercalate ['/'] comps

/-- Resolution of `(project_root / filepath).resolve()`: an absolute
`filepath` replaces the root, a relative one is joined to it. -/
def resolveUnder (root : List (List Char)) (filepath : List Char) : List (List Char) :=
  match filepath with
  | '/' :: _ => normalizeComps (splitComps filepath)
  | _ => normalizeComps (root ++ splitComps filepath)

/-- The `validate_path_within_project` check of the server:
`str(path.resolve()).startswith(str(project_root.resolve()))`. -/
def validate_path_within_project (path root : List (List Char)) : Bool :=
  (pathStr root).isPrefixOf (pathStr path)

/-- Genuine path containment: the resolved path lies within the project
root, component by component. -/
def isWithinRoot (path root : List (List Char)) : Bool :=
  root.isPrefixOf path

/-- The denial text of the `read_file` handler. -/
def accessDeniedText : List Char :=
  "Error: Access denied. File outside project directory.".data

/-- The `handle_read_file` tool handler: resolve the argument against the
project root, check containment before any filesystem access, then read.
The filesystem is passed in as a map from resolved components to file
contents. -/
def handle_read_file (root : List (List Char))
    (fs : List (List Char) → Option (List Char)) (filepath : List Char) : List Char :=
  let full := resolveUnder root filepath
  if validate_path_within_project full root = false then accessDeniedText
  else
    match fs full with
    | none => "Error: File not found: ".data ++ filepath
    | some content => "File contents of ".data ++ filepath ++ ":\n\n".data ++ content

/-! ### Concrete inputs used by witnesses and counterexamples -/

/-- Three retrieved chunks drawn from two distinct source documents. -/
def docsC3 : List Doc :=
  [⟨"alpha".data, "a.txt"⟩, ⟨"bravo".data, "b.txt"⟩, ⟨"charlie".data, "a.txt"⟩]

/-- A chunk longer than 150 characters whose text begins with a space. -/
def dC6 : Doc := ⟨' ' :: List.replicate 150 'a', "n.txt"⟩

/-- A demo filesystem for the tool server: a file inside a sibling
directory whose name extends the project root's name, and /etc/passwd. -/
def fsDemo : List (List Char) → Option (List Char) :=
  fun p =>
    if p = ["apple".data, "secret".data] then some "TOP-SECRET".data
    else if p = ["etc".data, "passwd".data] then some "root:x:0:0".data
    else none

/-! ## Lemmas: grouping retrieved chunks by source -/

theorem mem_addKey (ks : List String) (s t : String) :
    s ∈ addKey ks t ↔ s ∈ ks ∨ s = t := by
  by_cases h : t ∈ ks
  · simp only [addKey, if_pos h]
    exact ⟨Or.inl, fun hh => hh.elim id (fun e => e ▸ h)⟩
  · simp [addKey, if_neg h]

theorem nodup_addKey (ks : List String) (t : String) (h : ks.Nodup) :
    (addKey ks t).Nodup := by
  by_cases ht : t ∈ ks
  · simpa [addKey, ht] using h
  · simp [addKey, ht, List.nodup_append, h]

theorem mem_foldl_addKey (docs : List Doc) :
    ∀ (ks : List String) (s : String),
      s ∈ docs.foldl (fun a d => addKey a d.source) ks
        ↔ s ∈ ks ∨ ∃ d ∈ docs, d.source = s := by
  induction docs with
  | nil => intro ks s; simp
  | cons d rest ih =>
    intro ks s
    rw [List.foldl_cons, ih, mem_addKey]
    simp only [List.mem_cons]
    constructor
    · rintro ((hs | rfl) | ⟨d', hd', hs⟩)
      · exact Or.inl hs
      · exact Or.inr ⟨d, Or.inl rfl, rfl⟩
      · exact Or.inr ⟨d', Or.inr hd', hs⟩
    · rintro (hs | ⟨d', (rfl | hd'), hs⟩)
      · exact Or.inl (Or.inl hs)
      · exact Or.inl (Or.inr hs.symm)
      · exact Or.inr ⟨d', hd', hs⟩

theorem mem_keysOf (docs : List Doc) (s : String) :
    s ∈ keysOf docs ↔ ∃ d ∈ docs, d.source = s := by
  simpa using mem_foldl_addKey docs [] s

theorem nodup_foldl_addKey (docs : List Doc) :
    ∀ ks : List String, ks.Nodup →
      (docs.foldl (fun a d => addKey a d.source) ks).Nodup := by
  induction docs with
  | nil => intro ks h; simpa using h
  | cons d rest ih =>
    intro ks h
    rw [List.foldl_cons]
    exact ih _ (nodup_addKey ks d.source h)

theorem keysOf_nodup (docs : List Doc) : (keysOf docs).Nodup :=
  nodup_foldl_addKey docs [] List.nodup_nil

theorem insertGrouped_mem_key (ks : List String) (f : String → List Doc) (d : Doc)
    (hnd : ks.Nodup) (hmem : d.source ∈ ks) :
    insertGrouped (ks.map (fun s => (s, f s))) d =
      ks.map (fun s => (s, f s ++ if s = d.source then [d] else [])) := by
  induction ks with
  | nil => cases hmem
  | cons k ks ih =>
    rw [List.map_cons, List.map_cons]
    by_cases hk : k = d.source
    · subst hk
      simp only [insertGrouped, if_pos rfl]
      have hout : d.source ∉ ks := (List.nodup_cons.mp hnd).1
      have : ks.map (fun s => (s, f s ++ if s = d.source then [d] else []))
          = ks.map (fun s => (s, f s)) := by
        apply List.map_congr_left
        intro s hs
        have : ¬ s = d.source := fun e => hout (e ▸ hs)
        simp [this]
      simp [this]
    · have hmem' : d.source ∈ ks := by
        rcases List.mem_cons.mp hmem with h | h
        · exact absurd h.symm hk
        · exact h
      simp only [insertGrouped, if_neg hk]
      rw [ih (List.nodup_cons.mp hnd).2 hmem']
      simp [hk]

theorem insertGrouped_new_key (ks : List String) (f : String → List Doc) (d : Doc)
    (hmem : d.source ∉ ks) :
    insertGrouped (ks.map (fun s => (s, f s))) d =
      ks.map (fun s => (s, f s)) ++ [(d.source, [d])] := by
  induction ks with
  | nil => simp [insertGrouped]
  | cons k ks ih =>
    have hk : ¬ k = d.source := fun e => hmem (e ▸ List.mem_cons_self k ks)
    have hmem' : d.source ∉ ks := fun h => hmem (List.mem_cons_of_mem k h)
    simp only [List.map_cons, insertGrouped, if_neg hk]
    rw [ih hmem']
    simp

theorem foldl_insertGrouped (docs : List Doc) :
    ∀ (ks : List String) (f : String → List Doc),
      ks.Nodup → (∀ s, s ∉ ks → f s = []) →
      docs.foldl insertGrouped (ks.map (fun s => (s, f s))) =
        (docs.foldl (fun a d => addKey a d.source) ks).map
          (fun s => (s, f s ++ docs.filter (fun d => d.source = s))) := by
  induction docs with
  | nil => intro ks f _ _; simp
  | cons d rest ih =>
    intro ks f hnd hf
    rw [List.foldl_cons, List.foldl_cons]
    by_cases hmem : d.source ∈ ks
    · have haddkey : addKey ks d.source = ks := by simp [addKey, hmem]
      rw [insertGrouped_mem_key ks f d hnd hmem, haddkey,
        ih ks (fun s => f s ++ if s = d.source then [d] else []) hnd ?_]
      · apply List.map_congr_left
        intro s _
        by_cases hs : s = d.source
        · subst hs; simp
        · have : ¬ d.source = s := fun e => hs e.symm
          simp [hs, this]
      · intro s hs
        have : ¬ s = d.source := fun e => hs (e ▸ hmem)
        simp [hf s hs, this]
    · have haddkey : addKey ks d.source = ks ++ [d.source] := by simp [addKey, hmem]
      rw [insertGrouped_new_key ks f d hmem, haddkey]
      have hrepr : ks.map (fun s => (s, f s)) ++ [(d.source, [d])]
          = (ks ++ [d.source]).map (fun s => (s, if s = d.source then [d] else f s)) := by
        rw [List.map_append]
        congr 1
        · apply (List.map_congr_left _).symm
          intro s hs
          have : ¬ s = d.source := fun e => hmem (e ▸ hs)
          simp [this]
        · simp
      rw [hrepr, ih (ks ++ [d.source]) (fun s => if s = d.source then [d] else f s) ?_ ?_]
      · apply List.map_congr_left
        intro s _
        by_cases hs : s = d.source
        · subst hs
          have : ¬ d.source ∈ ks := hmem
          simp [hf _ this]
        · have : ¬ d.source = s := fun e => hs e.symm
          simp [hs, this]
      · simp [List.nodup_append, hnd, hmem]
      · intro s hs
        have h1 : s ∉ ks := fun h => hs (List.mem_append.mpr (Or.inl h))
        have h2 : ¬ s = d.source := fun e => hs (List.mem_append.mpr (Or.inr (by simp [e])))
        simp [h2, hf s h1]

theorem groupBySource_eq (docs : List Doc) :
    groupBySource docs =
      (keysOf docs).map (fun s => (s, docs.filter (fun d => d.source = s))) := by
  have h := foldl_insertGrouped docs [] (fun _ => []) List.nodup_nil (fun _ _ => rfl)
  simpa [groupBySource, keysOf] using h

theorem sizeSum_insertGrouped (g : List (String × List Doc)) (d : Doc) :
    ((insertGrouped g d).map (fun x => x.2.length)).sum
      = ((g.map (fun x => x.2.length)).sum) + 1 := by
  induction g with
  | nil => simp [insertGrouped]
  | cons p rest ih =>
    obtain ⟨s, ds⟩ := p
    by_cases h : s = d.source
    · simp [insertGrouped, h]
      omega
    · simp [insertGrouped, h, ih]
      omega

theorem sizeSum_foldl_insertGrouped (docs : List Doc) :
    ∀ g : List (String × List Doc),
      ((docs.foldl insertGrouped g).map (fun x => x.2.length)).sum
        = ((g.map (fun x => x.2.length)).sum) + docs.length := by
  induction docs with
  | nil => intro g; simp
  | cons d rest ih =>
    intro g
    rw [List.foldl_cons, ih, sizeSum_insertGrouped]
    simp
    omega

theorem sizeSum_groupBySource (docs : List Doc) :
    ((groupBySource docs).map (fun x => x.2.length)).sum = docs.length := by
  simpa [groupBySource] using sizeSum_foldl_insertGrouped docs []

theorem enumFrom_length {α : Type} (l : List α) :
    ∀ n, (enumFrom n l).length = l.length := by
  induction l with
  | nil => intro n; rfl
  | cons a r ih => intro n; simp [enumFrom, ih]

theorem contextParts_length (docs : List Doc) :
    (contextParts docs).length = docs.length := by
  rw [contextParts, List.length_flatten]
  have : ((groupBySource docs).map
      (fun g => (enumFrom 1 g.2).map (fun p => contextPart g.1 p.1 p.2))).map
        List.length
      = (groupBySource docs).map (fun g => g.2.length) := by
    rw [List.map_map]
    apply List.map_congr_left
    intro g _
    simp [enumFrom_length]
  rw [this, sizeSum_groupBySource]

/-! ## Claim C3: context assembly -/

/-- Claim C3, amended: the assembled context contains one labeled part per
retrieved chunk (not one header per document), grouped by source in order
of first occurrence of the sources, chunks of a document in retrieval
order with a per-source 1-based index, and the context passed to the chat
model is the first 6000 characters of the assembled block. -/
theorem c3_context_assembly_amended (docs : List Doc) :
    contextParts docs =
      ((keysOf docs).map
        (fun s => (enumFrom 1 (docs.filter (fun d => d.source = s))).map
          (fun p => contextPart s p.1 p.2))).flatten
    ∧ (keysOf docs).Nodup
    ∧ (∀ s, s ∈ keysOf docs ↔ ∃ d ∈ docs, d.source = s)
    ∧ (contextParts docs).length = docs.length
    ∧ contextForModel docs = (assembleContext docs).take 6000
    ∧ (contextForModel docs).length ≤ 6000 := by
  refine ⟨?_, keysOf_nodup docs, mem_keysOf docs,
    contextParts_length docs, rfl, ?_⟩
  · rw [contextParts, groupBySource_eq, List.map_map]
    rfl
  · rw [contextForModel]
    exact List.length_take_le 6000 _

/-- Claim C3, counterexample: for three retrieved chunks drawn from two
documents the assembled context contains three chunk labels, not two group
headers — one label per chunk, not one per document. -/
theorem c3_counterexample :
    countOcc "[Document: ".data (assembleContext docsC3) = 3
    ∧ (keysOf docsC3).length = 2
    ∧ ¬ countOcc "[Document: ".data (assembleContext docsC3)
        = (keysOf docsC3).length := by
  refine ⟨by decide, by decide, by decide⟩

/-! ## Claim C6: source-attributed answer formatting -/

/-- Claim C6, amended: the final answer is the raw model answer followed
by the sources section; the section header carries the distinct document
count and the total chunk count; each document block lists at most three
chunk previews (exactly `min 3 k` for `k` chunks) and an `and N more`
note exactly when the document contributed more than three chunks; each
preview is the first 150 characters of the chunk with newlines replaced
by spaces and surrounding whitespace stripped, with an ellipsis appended
when the chunk is longer than 150 characters. -/
theorem c6_sources_amended :
    (∀ answer docs, answerWithSources answer docs = answer ++ sourcesSection docs)
    ∧ (∀ docs : List Doc, sourcesSection docs
        = sourcesHeader (keysOf docs).length docs.length
          ++ ((keysOf docs).map
              (fun s => sourceBlock s (docs.filter (fun d => d.source = s)))).flatten)
    ∧ (∀ docs : List Doc,
        (keysOf docs).Nodup ∧ ∀ s, s ∈ keysOf docs ↔ ∃ d ∈ docs, d.source = s)
    ∧ (∀ (s : String) (ds : List Doc),
        ((enumFrom 1 (ds.take 3)).map (fun p => previewLine p.1 p.2)).length
          = min 3 ds.length
        ∧ sourceBlock s ds
          = blockHead s ds.length
            ++ ((enumFrom 1 (ds.take 3)).map (fun p => previewLine p.1 p.2)).flatten
            ++ (if 3 < ds.length then moreLine (ds.length - 3) else [])
            ++ "\n".data)
    ∧ (∀ d : Doc, previewOf d
        = pyStrip ((d.content.take 150).map (fun c => if c = '\n' then ' ' else c))
          ++ (if 150 < d.content.length then "...".data else [])) := by
  refine ⟨fun _ _ => rfl, ?_, fun docs => ⟨keysOf_nodup docs, mem_keysOf docs⟩,
    fun s ds => ⟨?_, rfl⟩, fun _ => rfl⟩
  · intro docs
    rw [sourcesSection, groupBySource_eq, List.map_map, List.length_map]
    rfl
  · rw [List.length_map, enumFrom_length, List.length_take]

/-- Claim C6, counterexample: the code strips surrounding whitespace from
a preview, so for a chunk whose text begins with a space the produced
preview is not the first 150 characters with newlines replaced — the
claimed preview differs from the implemented one, and so does the whole
sources section. -/
theorem c6_counterexample :
    previewOf dC6 ≠ claimPreview dC6
    ∧ sourcesSection [dC6] ≠ claimSourcesSection [dC6] := by
  refine ⟨by decide, by decide⟩

/-! ## Claim C5: errors become a conversation turn -/

/-- Claim C5: for a non-blank question, an error raised during retrieval
or during the model call is caught, converted to the user-visible error
string, and appended to the history as that turn's answer — a turn with
the same `(question, answer)` shape as a successful one, shown by the
third conjunct. -/
theorem c5_errors_append_turn (q : List Char) (h : List (List Char × List Char))
    (e : List Char) (hq : ¬ pyStrip q = []) :
    (∀ mr, query_rag q h (.error e) mr = ([], h ++ [(q, queryErrText e)]))
    ∧ (∀ docs, ¬ docs = [] →
        query_rag q h (.ok docs) (.error e) = ([], h ++ [(q, queryErrText e)]))
    ∧ (∀ docs answer, ¬ docs = [] →
        query_rag q h (.ok docs) (.ok answer)
          = ([], h ++ [(q, answerWithSources answer docs)])) := by
  refine ⟨fun mr => ?_, fun docs hd => ?_, fun docs answer hd => ?_⟩
  · simp [query_rag, hq]
  · simp [query_rag, hq, hd]
  · simp [query_rag, hq, hd]

/-- Witness for claim C5 at a concrete question, history and error. -/
theorem c5_witness :
    query_rag "hi".data [] (.error "boom".data) (.ok "a".data)
      = ([], [("hi".data, queryErrText "boom".data)])
    ∧ query_rag "hi".data [] (.ok [⟨"c".data, "s"⟩]) (.error "boom".data)
      = ([], [("hi".data, queryErrText "boom".data)]) := by
  have H := c5_errors_append_turn "hi".data [] "boom".data (by decide)
  exact ⟨by simpa using H.1 (.ok "a".data),
    by simpa using H.2.1 [⟨"c".data, "s"⟩] (by simp)⟩

/-! ## Claim C9: blank questions are a no-op -/

/-- Claim C9: for a whitespace-only question the handler returns an empty
output and the history unchanged, independently of the retrieval and
model outcomes — no retrieval, no model call, no appended turn. -/
theorem c9_blank_question_noop (q : List Char) (h : List (List Char × List Char))
    (rr : Except (List Char) (List Doc)) (mr : Except (List Char) (List Char))
    (hq : pyStrip q = []) :
    query_rag q h rr mr = ([], h) := by
  simp [query_rag, hq]

/-- Witness for claim C9 at a concrete whitespace-only question. -/
theorem c9_witness :
    query_rag " \t\n".data [("a".data, "b".data)] (.ok [⟨"c".data, "s"⟩])
      (.ok "x".data) = ([], [("a".data, "b".data)]) :=
  c9_blank_question_noop " \t\n".data [("a".data, "b".data)]
    (.ok [⟨"c".data, "s"⟩]) (.ok "x".data) (by decide)

/-! ## Claim C7: re-indexing appends, never modifies -/

/-- Claim C7: indexing the same document twice stores two independent
sets of chunk vectors with no deduplication — each index operation only
appends to the collection, the previously stored vectors survive as a
prefix, and the collection grows by the same chunk count both times. -/
theorem c7_reindex_no_dedup (st : AppState) (name : String) (d : Doc) :
    ((index_documents [some ⟨name, .ok [d]⟩] st).1).store
      = st.store ++ docChunks ⟨d.content, name⟩
    ∧ ((index_documents [some ⟨name, .ok [d]⟩]
          (index_documents [some ⟨name, .ok [d]⟩] st).1).1).store
      = st.store ++ docChunks ⟨d.content, name⟩ ++ docChunks ⟨d.content, name⟩
    ∧ ((index_documents [some ⟨name, .ok [d]⟩] st).1).store.length
      = st.store.length + (docChunks ⟨d.content, name⟩).length
    ∧ ((index_documents [some ⟨name, .ok [d]⟩]
          (index_documents [some ⟨name, .ok [d]⟩] st).1).1).store.length
      = ((index_documents [some ⟨name, .ok [d]⟩] st).1).store.length
        + (docChunks ⟨d.content, name⟩).length
    ∧ ((index_documents [some ⟨name, .ok [d]⟩] st).1).store.take st.store.length
      = st.store := by
  have hstep : ∀ s : AppState,
      ((index_documents [some ⟨name, .ok [d]⟩] s).1).store
        = s.store ++ docChunks ⟨d.content, name⟩ := by
    intro s
    simp [index_documents, processFiles, chunksOf, addDocuments]
  refine ⟨hstep st, ?_, ?_, ?_, ?_⟩
  · rw [hstep _, hstep st, List.append_assoc]
  · rw [hstep st, List.length_append]
  · rw [hstep _, List.length_append]
  · rw [hstep st, List.take_left]

/-! ## Claim C10: a batch with no loadable file leaves the store unchanged -/

theorem processFiles_errs (files : List (Option FileRec)) :
    (processFiles files).2.2 = errsOf files := by
  induction files with
  | nil => rfl
  | cons f rest ih =>
    cases f with
    | none => simpa [processFiles, errsOf] using ih
    | some r =>
      cases hr : r.loadResult with
      | ok docs => simp [processFiles, errsOf, hr, ih]
      | error e => simp [processFiles, errsOf, hr, ih]

theorem processFiles_docs_empty (files : List (Option FileRec))
    (hf : ∀ f ∈ files, f = none ∨ ∃ r, f = some r ∧ ∃ e, r.loadResult = .error e) :
    (processFiles files).1 = [] := by
  induction files with
  | nil => rfl
  | cons f rest ih =>
    have hrest := ih (fun g hg => hf g (List.mem_cons_of_mem f hg))
    rcases hf f (List.mem_cons_self f rest) with rfl | ⟨r, rfl, e, hr⟩
    · simpa [processFiles] using hrest
    · simp [processFiles, hr, hrest]

/-- Claim C10: when no uploaded file yields a loadable document (empty
list, all `None`, or every load raised), `index_documents` returns an
error status — listing the per-file errors when there are any — and
leaves the vector collection untouched: no chunking, no add. -/
theorem c10_no_loadable_files (files : List (Option FileRec)) (st : AppState)
    (hf : ∀ f ∈ files, f = none ∨ ∃ r, f = some r ∧ ∃ e, r.loadResult = .error e) :
    (index_documents files st).1 = st
    ∧ ((index_documents files st).2 = noFilesMsg
        ∨ (index_documents files st).2 = noDocsMsg (errsOf files)) := by
  cases files with
  | nil => exact ⟨rfl, Or.inl rfl⟩
  | cons f rest =>
    have hdocs := processFiles_docs_empty (f :: rest) hf
    have herrs := processFiles_errs (f :: rest)
    constructor
    · simp [index_documents, hdocs]
    · right
      simp [index_documents, hdocs, herrs]

/-- Witness for claim C10: one `None` entry and one file whose load
raised; the state is unchanged and the status lists the error. -/
theorem c10_witness :
    (index_documents [none, some ⟨"bad.txt", .error "boom".data⟩]
        ⟨[⟨"c".data, "s"⟩]⟩).1 = ⟨[⟨"c".data, "s"⟩]⟩
    ∧ ((index_documents [none, some ⟨"bad.txt", .error "boom".data⟩]
          ⟨[⟨"c".data, "s"⟩]⟩).2 = noFilesMsg
        ∨ (index_documents [none, some ⟨"bad.txt", .error "boom".data⟩]
            ⟨[⟨"c".data, "s"⟩]⟩).2
          = noDocsMsg (errsOf [none, some ⟨"bad.txt", .error "boom".data⟩])) :=
  c10_no_loadable_files [none, some ⟨"bad.txt", .error "boom".data⟩]
    ⟨[⟨"c".data, "s"⟩]⟩
    (by
      intro f hf
      rcases List.mem_cons.mp hf with rfl | hf
      · exact Or.inl rfl
      · rcases List.mem_cons.mp hf with rfl | hf
        · exact Or.inr ⟨⟨"bad.txt", .error "boom".data⟩, rfl, "boom".data, rfl⟩
        · cases hf)

/-! ## Claim C8: clearing the index empties retrieval -/

/-- Claim C8: immediately after `clear_index` the retriever reads an
empty collection — no vector stored before the clear is visible — and a
query returns the no-answer message with the history unchanged, rather
than an error. -/
theorem c8_clear_then_query (st : AppState) (q : List Char)
    (h : List (List Char × List Char)) (mr : Except (List Char) (List Char))
    (hq : ¬ pyStrip q = []) :
    retrieve ((clear_index st).1).store q = []
    ∧ query_rag_state (clear_index st).1 q h mr = (noRelevantMsg, h) := by
  refine ⟨rfl, ?_⟩
  simp [query_rag_state, query_rag, clear_index, retrieve, hq]

/-- Witness for claim C8 at a concrete non-empty collection and query. -/
theorem c8_witness :
    retrieve ((clear_index ⟨[⟨"x".data, "s"⟩]⟩).1).store "hi".data = []
    ∧ query_rag_state (clear_index ⟨[⟨"x".data, "s"⟩]⟩).1 "hi".data
        [("a".data, "b".data)] (.ok "ans".data)
      = (noRelevantMsg, [("a".data, "b".data)]) :=
  c8_clear_then_query ⟨[⟨"x".data, "s"⟩]⟩ "hi".data [("a".data, "b".data)]
    (.ok "ans".data) (by decide)

/-! ## Claim C4: document loading rejections -/

/-- Claim C4, amended: a Word or PowerPoint document whose assembled text
is empty or whitespace-only raises, and unsupported extensions raise; but
the TXT and PDF branches return the external loader's extraction as-is,
with no emptiness check of their own. -/
theorem c4_load_document_amended :
    (∀ (path : String) (paras cells : List (List Char)),
        pyStrip (docxFullText paras cells) = [] →
        load_document path (.docx paras cells)
          = .error (loadErrMsg path "Document appears to be empty".data))
    ∧ (∀ (path : String) (slides : List (List (List Char))),
        pyStrip (pptxFullText slides) = [] →
        load_document path (.pptx slides)
          = .error (loadErrMsg path "Presentation appears to be empty".data))
    ∧ (∀ path ext : String,
        load_document path (.other ext)
          = .error (loadErrMsg path ("Unsupported file type: ".data ++ ext.data)))
    ∧ (∀ (path : String) (t : List Char),
        load_document path (.txt t) = .ok [⟨t, path⟩])
    ∧ (∀ (path : String) (ds : List Doc),
        load_document path (.pdf ds) = .ok ds) := by
  refine ⟨fun path paras cells hempty => ?_, fun path slides hempty => ?_,
    fun _ _ => rfl, fun _ _ => rfl, fun _ _ => rfl⟩
  · simp [load_document, hempty]
  · simp [load_document, hempty]

/-- Witness for claim C4 at concrete whitespace-only documents and an
unsupported extension. -/
theorem c4_witness :
    load_document "a.docx" (.docx [" ".data] [])
      = .error (loadErrMsg "a.docx" "Document appears to be empty".data)
    ∧ load_document "s.pptx" (.pptx [[]])
      = .error (loadErrMsg "s.pptx" "Presentation appears to be empty".data)
    ∧ load_document "x.xyz" (.other ".xyz")
      = .error (loadErrMsg "x.xyz" ("Unsupported file type: ".data ++ ".xyz".data)) :=
  ⟨c4_load_document_amended.1 "a.docx" [" ".data] [] (by decide),
    c4_load_document_amended.2.1 "s.pptx" [[]] (by decide),
    c4_load_document_amended.2.2.1 "x.xyz" ".xyz"⟩

/-- Claim C4, counterexample: a TXT file whose extracted content is
whitespace-only loads without error as a Document with that content —
the claimed rejection of empty content does not happen on the TXT
branch. -/
theorem c4_counterexample :
    pyStrip " ".data = []
    ∧ load_document "e.txt" (.txt " ".data) = .ok [⟨" ".data, "e.txt"⟩] :=
  ⟨by decide, rfl⟩

/-! ## Claim C1: tool server path containment -/

/-- Claim C1: the containment check is a string-prefix test on the
rendered resolved path, so it wrongly admits paths outside the project
root whose rendering extends the root's rendering.  With project root
`/app`, `read_file("../../etc/passwd")` is denied as the claim states,
but `read_file("../apple/secret")` resolves to `/apple/secret` — outside
the root — passes `validate_path_within_project`, and the handler returns
the file contents instead of a denial. -/
theorem c1_path_check_bug :
    handle_read_file ["app".data] fsDemo "../../etc/passwd".data = accessDeniedText
    ∧ resolveUnder ["app".data] "../apple/secret".data = ["apple".data, "secret".data]
    ∧ validate_path_within_project ["apple".data, "secret".data] ["app".data] = true
    ∧ isWithinRoot ["apple".data, "secret".data] ["app".data] = false
    ∧ handle_read_file ["app".data] fsDemo "../apple/secret".data
      = "File contents of ../apple/secret:\n\nTOP-SECRET".data := by
  refine ⟨by decide, by decide, by decide, by decide, by decide⟩

/-! ## Lemmas: the chunker -/

theorem sliceLC_drop (text : List Char) (s e pe : Nat) (h : s ≤ pe) :
    (sliceLC text s e).drop (pe - s) = sliceLC text pe e := by
  rw [sliceLC, sliceLC, List.drop_drop]
  congr 1
  omega

theorem slice_append_drop (text : List Char) (pe p : Nat) (h : pe ≤ p) :
    sliceLC text pe p ++ text.drop p = text.drop pe := by
  rw [sliceLC]
  have h1 : (text.take p).drop pe = (text.drop pe).take (p - pe) := by
    rw [List.drop_take]
  have h2 : text.drop p = (text.drop pe).drop (p - pe) := by
    rw [List.drop_drop]
    congr 1
    omega
  rw [h1, h2, List.take_append_drop]

theorem findSepEnd_some (text sep : List Char) (start : Nat) :
    ∀ hi p, findSepEnd text sep start hi = some p →
      start < p ∧ p ≤ hi ∧ sepAt text sep p = true := by
  intro hi
  induction hi with
  | zero => intro p h; cases h
  | succ m ih =>
    intro p h
    rw [findSepEnd] at h
    split at h
    · cases h
    · rename_i h1
      split at h
      · rename_i h2
        cases h
        exact ⟨by omega, le_refl _, h2⟩
      · obtain ⟨hl, hm, hs⟩ := ih p h
        exact ⟨hl, by omega, hs⟩

theorem findSepEnd_max (text sep : List Char) (start : Nat) :
    ∀ hi p, findSepEnd text sep start hi = some p →
      ∀ q, p < q → q ≤ hi → sepAt text sep q = false := by
  intro hi
  induction hi with
  | zero => intro p h; cases h
  | succ m ih =>
    intro p h q hpq hqhi
    rw [findSepEnd] at h
    split at h
    · cases h
    · split at h
      · cases h
        exact absurd hqhi (by omega)
      · rename_i h2
        by_cases hq : q = m + 1
        · subst hq
          simpa using h2
        · exact ih p h q hpq (by omega)

theorem findSepEnd_none (text sep : List Char) (start : Nat) :
    ∀ hi, findSepEnd text sep start hi = none →
      ∀ q, start < q → q ≤ hi → sepAt text sep q = false := by
  intro hi
  induction hi with
  | zero => intro _ q h1 h2; exact absurd h1 (by omega)
  | succ m ih =>
    intro h q hq1 hq2
    rw [findSepEnd] at h
    split at h
    · rename_i h1
      exact absurd hq1 (by omega)
    · split at h
      · cases h
      · rename_i h2
        by_cases hq : q = m + 1
        · subst hq
          simpa using h2
        · exact ih h q hq1 (by omega)

theorem findSepEnd_ge (text sep : List Char) (start hi p : Nat)
    (hp : sepAt text sep p = true) (h1 : start < p) (h2 : p ≤ hi) :
    ∃ q, findSepEnd text sep start hi = some q ∧ p ≤ q := by
  cases hfind : findSepEnd text sep start hi with
  | none =>
    have := findSepEnd_none text sep start hi hfind p h1 h2
    rw [hp] at this
    cases this
  | some q =>
    refine ⟨q, rfl, ?_⟩
    by_contra hlt
    push_neg at hlt
    have := findSepEnd_max text sep start hi q hfind p hlt h2
    rw [hp] at this
    cases this

theorem sep_new_window (text sep : List Char) (st next hi hi' q : Nat)
    (hnone : findSepEnd text sep st hi = none)
    (hfind : findSepEnd text sep next hi' = some q)
    (hst : st ≤ next) : hi < q := by
  obtain ⟨hq1, hq2, hq3⟩ := findSepEnd_some text sep next hi' q hfind
  by_contra hle
  push_neg at hle
  have := findSepEnd_none text sep st hi hnone q (by omega) hle
  rw [hq3] at this
  cases this

theorem splitPoint_bounds (text : List Char) (start : Nat) (h : start < text.length) :
    start < splitPoint text start ∧ splitPoint text start ≤ hardEnd text start := by
  have hhard : start < hardEnd text start := by
    rw [hardEnd]
    omega
  rw [splitPoint]
  cases h1 : findSepEnd text sepPar start (hardEnd text start) with
  | some p =>
    have f := findSepEnd_some text sepPar start (hardEnd text start) p h1
    exact ⟨f.1, f.2.1⟩
  | none =>
  cases h2 : findSepEnd text sepLine start (hardEnd text start) with
  | some p =>
    have f := findSepEnd_some text sepLine start (hardEnd text start) p h2
    exact ⟨f.1, f.2.1⟩
  | none =>
  cases h3 : findSepEnd text sepSent start (hardEnd text start) with
  | some p =>
    have f := findSepEnd_some text sepSent start (hardEnd text start) p h3
    exact ⟨f.1, f.2.1⟩
  | none =>
  cases h4 : findSepEnd text sepWord start (hardEnd text start) with
  | some p =>
    have f := findSepEnd_some text sepWord start (hardEnd text start) p h4
    exact ⟨f.1, f.2.1⟩
  | none => exact ⟨hhard, le_refl _⟩

theorem splitPoint_pref (text : List Char) (start : Nat) :
    prefOk text start (splitPoint text start) := by
  rw [splitPoint]
  cases h1 : findSepEnd text sepPar start (hardEnd text start) with
  | some p =>
    exact Or.inl (findSepEnd_some text sepPar start (hardEnd text start) p h1).2.2
  | none =>
  have n1 := findSepEnd_none text sepPar start (hardEnd text start) h1
  cases h2 : findSepEnd text sepLine start (hardEnd text start) with
  | some p =>
    exact Or.inr (Or.inl
      ⟨n1, (findSepEnd_some text sepLine start (hardEnd text start) p h2).2.2⟩)
  | none =>
  have n2 := findSepEnd_none text sepLine start (hardEnd text start) h2
  cases h3 : findSepEnd text sepSent start (hardEnd text start) with
  | some p =>
    exact Or.inr (Or.inr (Or.inl
      ⟨n1, n2, (findSepEnd_some text sepSent start (hardEnd text start) p h3).2.2⟩))
  | none =>
  have n3 := findSepEnd_none text sepSent start (hardEnd text start) h3
  cases h4 : findSepEnd text sepWord start (hardEnd text start) with
  | some p =>
    exact Or.inr (Or.inr (Or.inr (Or.inl
      ⟨n1, n2, n3, (findSepEnd_some text sepWord start (hardEnd text start) p h4).2.2⟩)))
  | none =>
    exact Or.inr (Or.inr (Or.inr (Or.inr
      ⟨n1, n2, n3, findSepEnd_none text sepWord start (hardEnd text start) h4, rfl⟩)))

theorem splitPoint_ge (text : List Char) (st next p : Nat)
    (hlen : st + 1000 < text.length) (h1 : st < next) (h2 : next ≤ p)
    (hdef : splitPoint text st = p) :
    p ≤ splitPoint text next := by
  rcases Nat.eq_or_lt_of_le h2 with heq | hlt
  · subst heq
    have hb := (splitPoint_bounds text st (by omega)).2
    rw [hdef] at hb
    rw [hardEnd] at hb
    exact le_of_lt (splitPoint_bounds text next (by omega)).1
  · have hphi : p ≤ hardEnd text st := by
      have hb := (splitPoint_bounds text st (by omega)).2
      rw [hdef] at hb
      exact hb
    have hhile : hardEnd text st ≤ hardEnd text next := by
      rw [hardEnd, hardEnd]
      omega
    have hphi' : p ≤ hardEnd text next := le_trans hphi hhile
    rw [splitPoint] at hdef
    rw [splitPoint]
    cases o1 : findSepEnd text sepPar st (hardEnd text st) with
    | some pp =>
      simp only [o1] at hdef
      subst hdef
      have hsep := (findSepEnd_some text sepPar st (hardEnd text st) pp o1).2.2
      obtain ⟨q, hq, hge⟩ :=
        findSepEnd_ge text sepPar next (hardEnd text next) pp hsep hlt hphi'
      simp only [hq]
      exact hge
    | none =>
    simp only [o1] at hdef
    cases n1 : findSepEnd text sepPar next (hardEnd text next) with
    | some q =>
      simp only [n1]
      have := sep_new_window text sepPar st next (hardEnd text st)
        (hardEnd text next) q o1 n1 (by omega)
      omega
    | none =>
    simp only [n1]
    cases o2 : findSepEnd text sepLine st (hardEnd text st) with
    | some pp =>
      simp only [o2] at hdef
      subst hdef
      have hsep := (findSepEnd_some text sepLine st (hardEnd text st) pp o2).2.2
      obtain ⟨q, hq, hge⟩ :=
        findSepEnd_ge text sepLine next (hardEnd text next) pp hsep hlt hphi'
      simp only [hq]
      exact hge
    | none =>
    simp only [o2] at hdef
    cases n2 : findSepEnd text sepLine next (hardEnd text next) with
    | some q =>
      simp only [n2]
      have := sep_new_window text sepLine st next (hardEnd text st)
        (hardEnd text next) q o2 n2 (by omega)
      omega
    | none =>
    simp only [n2]
    cases o3 : findSepEnd text sepSent st (hardEnd text st) with
    | some pp =>
      simp only [o3] at hdef
      subst hdef
      have hsep := (findSepEnd_some text sepSent st (hardEnd text st) pp o3).2.2
      obtain ⟨q, hq, hge⟩ :=
        findSepEnd_ge text sepSent next (hardEnd text next) pp hsep hlt hphi'
      simp only [hq]
      exact hge
    | none =>
    simp only [o3] at hdef
    cases n3 : findSepEnd text sepSent next (hardEnd text next) with
    | some q =>
      simp only [n3]
      have := sep_new_window text sepSent st next (hardEnd text st)
        (hardEnd text next) q o3 n3 (by omega)
      omega
    | none =>
    simp only [n3]
    cases o4 : findSepEnd text sepWord st (hardEnd text st) with
    | some pp =>
      simp only [o4] at hdef
      subst hdef
      have hsep := (findSepEnd_some text sepWord st (hardEnd text st) pp o4).2.2
      obtain ⟨q, hq, hge⟩ :=
        findSepEnd_ge text sepWord next (hardEnd text next) pp hsep hlt hphi'
      simp only [hq]
      exact hge
    | none =>
    simp only [o4] at hdef
    cases n4 : findSepEnd text sepWord next (hardEnd text next) with
    | some q =>
      simp only [n4]
      have := sep_new_window text sepWord st next (hardEnd text st)
        (hardEnd text next) q o4 n4 (by omega)
      omega
    | none =>
      simp only [n4]
      rw [← hdef]
      exact hhile

theorem chunksFrom_head (text : List Char) (st : Nat) :
    ∃ tail, chunksFrom text st = (st, firstEnd text st) :: tail := by
  rw [chunksFrom, firstEnd]
  by_cases h : text.length ≤ st + 1000
  · rw [dif_pos h, if_pos h]
    exact ⟨[], rfl⟩
  · rw [dif_neg h, if_neg h]
    exact ⟨_, rfl⟩

theorem chunksFrom_master (text : List Char) :
    ∀ k st, text.length - st ≤ k → st < text.length →
      (∀ pr ∈ chunksFrom text st, pr.1 < pr.2 ∧ pr.2 ≤ pr.1 + 1000 ∧ pr.2 ≤ text.length)
      ∧ List.Chain' (fun a b => a.1 < a.2 ∧ a.2 = splitPoint text a.1
          ∧ b.1 = max (a.1 + 1) (a.2 - 200)) (chunksFrom text st)
      ∧ ∀ pe, st ≤ pe → pe ≤ firstEnd text st →
          reconFrom text pe (chunksFrom text st) = text.drop pe := by
  intro k
  induction k with
  | zero => intro st hk hst; omega
  | succ k ih =>
    intro st hk hst
    by_cases hfit : text.length ≤ st + 1000
    · have hch : chunksFrom text st = [(st, text.length)] := by
        rw [chunksFrom, dif_pos hfit]
      rw [hch]
      refine ⟨?_, by simp, ?_⟩
      · intro pr hpr
        rw [List.mem_singleton] at hpr
        subst hpr
        exact ⟨hst, by omega, le_refl _⟩
      · intro pe hpe1 hpe2
        rw [firstEnd, if_pos hfit] at hpe2
        rw [reconFrom, reconFrom, sliceLC_drop text st text.length pe hpe1,
          List.append_nil, sliceLC, List.take_length]
    · push_neg at hfit
      have hch : chunksFrom text st = (st, splitPoint text st) ::
          chunksFrom text (max (st + 1) (splitPoint text st - 200)) := by
        rw [chunksFrom, dif_neg (by omega)]
      have hsb := splitPoint_bounds text st hst
      have hplen : splitPoint text st ≤ st + 1000 := by
        have := hsb.2
        rw [hardEnd] at this
        omega
      have hnxt1 : st < max (st + 1) (splitPoint text st - 200) := by omega
      have hnxt2 : max (st + 1) (splitPoint text st - 200) ≤ splitPoint text st := by
        have := hsb.1
        omega
      have hnxtlen : max (st + 1) (splitPoint text st - 200) < text.length := by omega
      have IH := ih (max (st + 1) (splitPoint text st - 200)) (by omega) hnxtlen
      have hpfe : splitPoint text st
          ≤ firstEnd text (max (st + 1) (splitPoint text st - 200)) := by
        rw [firstEnd]
        split
        · omega
        · exact splitPoint_ge text st (max (st + 1) (splitPoint text st - 200))
            (splitPoint text st) hfit hnxt1 hnxt2 rfl
      refine ⟨?_, ?_, ?_⟩
      · intro pr hpr
        rw [hch] at hpr
        rcases List.mem_cons.mp hpr with rfl | hpr
        · exact ⟨hsb.1, by omega, by omega⟩
        · exact IH.1 pr hpr
      · rw [hch]
        obtain ⟨tail, htail⟩ :=
          chunksFrom_head text (max (st + 1) (splitPoint text st - 200))
        rw [htail, List.chain'_cons]
        refine ⟨⟨hsb.1, rfl, rfl⟩, ?_⟩
        rw [← htail]
        exact IH.2.1
      · intro pe hpe1 hpe2
        rw [firstEnd, if_neg (by omega)] at hpe2
        rw [hch, reconFrom, sliceLC_drop text st (splitPoint text st) pe hpe1,
          IH.2.2 (splitPoint text st) hnxt2 hpfe]
        exact slice_append_drop text pe (splitPoint text st) hpe2

/-! ## Claim C2: the chunker contract -/

/-- Claim C2: for a text longer than 1000 characters the chunker produces
an ordered sequence of at least two chunks, each at most 1000 characters;
consecutive chunks overlap, with exactly 200 characters of overlap
whenever the preceding chunk is longer than 200 characters and never
more than 200; every split point obeys the separator preference order
(paragraph break, line break, sentence end, space, hard cut); and
concatenating the chunks with each chunk's overlap with its predecessor
removed reconstructs the original text. -/
theorem c2_chunker_spec (text : List Char) (h : 1000 < text.length) :
    2 ≤ (chunkSlices text).length
    ∧ (∀ c ∈ chunkTexts text, c.length ≤ 1000)
    ∧ List.Chain' (fun a b => a.1 < b.1 ∧ b.1 ≤ a.2 ∧ a.2 - b.1 ≤ 200
        ∧ (a.1 + 201 ≤ a.2 → a.2 - b.1 = 200) ∧ prefOk text a.1 a.2)
        (chunkSlices text)
    ∧ reconFrom text 0 (chunkSlices text) = text := by
  have h0 : 0 < text.length := by omega
  have hM := chunksFrom_master text text.length 0 (by omega) h0
  have hcs : chunkSlices text = chunksFrom text 0 := by
    rw [chunkSlices, if_neg (by omega)]
  refine ⟨?_, ?_, ?_, ?_⟩
  · rw [hcs, chunksFrom, dif_neg (by omega)]
    obtain ⟨tail, htail⟩ := chunksFrom_head text (max 1 (splitPoint text 0 - 200))
    rw [htail]
    simp
  · intro c hc
    rw [chunkTexts, hcs] at hc
    obtain ⟨pr, hpr, rfl⟩ := List.mem_map.mp hc
    have hb := hM.1 pr hpr
    rw [sliceLC, List.length_drop, List.length_take]
    omega
  · rw [hcs]
    refine List.Chain'.imp ?_ hM.2.1
    intro a b hab
    obtain ⟨hb1, hb2, hb3⟩ := hab
    refine ⟨by omega, by omega, by omega, by omega, ?_⟩
    rw [hb2]
    exact splitPoint_pref text a.1
  · rw [hcs]
    have hr := hM.2.2 0 (Nat.zero_le 0) (Nat.zero_le _)
    rw [hr, List.drop_zero]

/-- Witness for claim C2 at a concrete text of 1001 characters. -/
theorem c2_witness :
    2 ≤ (chunkSlices (List.replicate 1001 'a')).length
    ∧ (∀ c ∈ chunkTexts (List.replicate 1001 'a'), c.length ≤ 1000)
    ∧ List.Chain' (fun a b => a.1 < b.1 ∧ b.1 ≤ a.2 ∧ a.2 - b.1 ≤ 200
        ∧ (a.1 + 201 ≤ a.2 → a.2 - b.1 = 200)
        ∧ prefOk (List.replicate 1001 'a') a.1 a.2)
        (chunkSlices (List.replicate 1001 'a'))
    ∧ reconFrom (List.replicate 1001 'a') 0 (chunkSlices (List.replicate 1001 'a'))
      = List.replicate 1001 'a' :=
  c2_chunker_spec (List.replicate 1001 'a') (by simp)

end Cookbook
